import Mathlib

/-!
Verification of the QuoVadis exam-database exporter (db7559__12_pdf.py).

Python strings are embedded as `List Char`; reportlab point lengths as `ℚ`
(the source works with floats; all constants involved are exact decimals or
ratios, so ℚ is the faithful exact embedding).  reportlab's `stringWidth`
sums per-glyph widths for a fixed font and size, so it is embedded as the
sum of a per-character width function `cw : Char → ℚ` (the metrics of the
registered Japanese font at size 12, which live in the font file, are kept
abstract).  Network fetch + PIL decode, and draw-time image encoding, are
external effects; they are embedded as oracles `fetch : List Char →
Option (ℕ × ℕ)` (decoded pixel size, or `none` for any fetch/decode
exception) and `drawErr : List Char → Option (List Char)` (`some e` when
`pil.save`/`drawImage` raises an exception rendered as the string `e`).
-/

namespace QuoVadis

/-! ## Definitions -/

/-- Embedding of `reportlab.pdfbase.pdfmetrics.stringWidth` for a fixed
font and size: the sum of the per-character advance widths `cw`. -/
def stringWidth (cw : Char → ℚ) (s : List Char) : ℚ :=
  (s.map cw).sum

/-- Embedding of Python `pat in s` (substring test), `pat` nonempty at all
call sites.  `True` iff `pat` occurs contiguously in `s`. -/
def listContains (pat : List Char) : List Char → Bool
  | [] => pat.isPrefixOf []
  | c :: rest => pat.isPrefixOf (c :: rest) || listContains pat rest

/-- Python `s.split(sep)` for a nonempty separator `s0 :: sep`: splits at
leftmost non-overlapping occurrences.  The `ℕ` argument counts characters
of an already-matched separator still to be consumed, so the recursion is
structural on the string. -/
def pySplitAux (s0 : Char) (sep : List Char) :
    List Char → ℕ → List Char → List (List Char)
  | [], _, acc => [acc.reverse]
  | _ :: rest, Nat.succ k, acc => pySplitAux s0 sep rest k acc
  | c :: rest, 0, acc =>
    if (s0 :: sep).isPrefixOf (c :: rest) then
      acc.reverse :: pySplitAux s0 sep rest sep.length []
    else
      pySplitAux s0 sep rest 0 (c :: acc)

/-- Python `s.split(sep)`.  (Python raises `ValueError` on an empty
separator; every call site in the source uses a nonempty literal.) -/
def pySplit (sep s : List Char) : List (List Char) :=
  match sep with
  | [] => [s]
  | s0 :: rest => pySplitAux s0 rest s 0 []

def gdMark : List Char := "drive.google.com".toList
def fdSeg : List Char := "/file/d/".toList
def ucHead : List Char := "https://drive.google.com/uc?export=view&id=".toList

/-- Embedding of `convert_google_drive_link`: rewrite Google-Drive
`/file/d/{id}/` share links to `uc?export=view&id={id}`; anything else
passes through unchanged (including via the `except` fallback). -/
def convert_google_drive_link (url : List Char) : List Char :=
  if listContains gdMark url && listContains fdSeg url then
    match pySplit fdSeg url with
    | _ :: second :: _ => ucHead ++ (pySplit ['/'] second).headD []
    | _ => url
  else url

/-- Loop of `wrap_text`: greedily accumulate characters into `buf` while
the measured width stays within `mw`; otherwise flush `buf` as a line and
restart the buffer from the offending character.  The trailing
`if buf: lines.append(buf)` of the source is the `[]` case. -/
def wrapAux (cw : Char → ℚ) (mw : ℚ) : List Char → List Char → List (List Char)
  | [], buf => if buf = [] then [] else [buf]
  | ch :: rest, buf =>
    if stringWidth cw (buf ++ [ch]) ≤ mw then
      wrapAux cw mw rest (buf ++ [ch])
    else
      buf :: wrapAux cw mw rest [ch]

/-- Embedding of `wrap_text(text, max_width, font_name, font_size)`; the
font name and size are folded into the width function `cw`.  An empty
input yields exactly one empty line, as in the source. -/
def wrap_text (cw : Char → ℚ) (text : List Char) (mw : ℚ) : List (List Char) :=
  if text = [] then [[]] else wrapAux cw mw text []

/-- Embedding of `wrapped_lines(prefix, value, usable_width, font, size)`. -/
def wrapped_lines (cw : Char → ℚ) (pre v : List Char) (uw : ℚ) :
    List (List Char) :=
  wrap_text cw (pre ++ v) uw

/-! ### PDF layout engine (`create_pdf`)

`reportlab.lib.pagesizes.A4 = (210*mm, 297*mm)` with `mm = 72/25.4`, so
the page is exactly `75600/127 × 106920/127` points. -/

def A4w : ℚ := 75600 / 127
def A4h : ℚ := 106920 / 127
def top_margin : ℚ := 40
def bottom_margin : ℚ := 60
def left_margin : ℚ := 40
def right_margin : ℚ := 40
def usable_width : ℚ := A4w - left_margin - right_margin
def page_usable_h : ℚ := (A4h - top_margin) - bottom_margin
def line_h : ℚ := 18

/-- Cursor position at the top of a fresh page, `height - top_margin`. -/
def topY : ℚ := A4h - top_margin

/-- One canvas drawing action.  `image iw ih nw nh` records the original
pixel size (as ℚ) next to the drawn size. -/
inductive Op where
  | text : List Char → Op
  | image : ℚ → ℚ → ℚ → ℚ → Op
  | newPage : Op
deriving DecidableEq

/-- Mutable state of the loop body: cursor, number of `showPage` calls,
and the drawing actions issued so far (locally per record). -/
structure LSt where
  y : ℚ
  pages : ℕ
  ops : List Op
deriving DecidableEq

/-- One row after `safe_get` extraction: question, the five choice slots
(empty list = absent), answer, category, image link (empty = absent). -/
structure Record where
  q : List Char
  choicesRaw : List (List Char)
  ans : List Char
  cat : List Char
  link : List Char
deriving DecidableEq

/-- Python `str(i)` for a single digit. -/
def digitChar (i : ℕ) : Char := Char.ofNat (48 + i)

def qPre : List Char := ['問', '題', '文', ':', ' ']
def choicePre (i : ℕ) : List Char :=
  ['選', '択', '肢'] ++ [digitChar i] ++ [':', ' ']
def ansPre : List Char := ['正', '解', ':', ' ']
def catPre : List Char := ['分', '類', ':', ' ']
def failMsg : List Char := ['[', '画', '像', '読', 'み', '込', 'み', '失', '敗', ']']
def errOpen : List Char := ['[', '画', '像', '読', 'み', '込', 'み', '失', '敗', ':', ' ']

/-- The `choices` list built by the loop `for i in range(1, 6)`:
index–value pairs of the non-empty choice fields. -/
def choicesOf (r : Record) : List (ℕ × List Char) :=
  (List.range 5).filterMap fun k =>
    let v := r.choicesRaw.getD k []
    if v = [] then none else some (k + 1, v)

/-- Embedding of the nested `new_page()`. -/
def new_page (st : LSt) : LSt :=
  ⟨topY, st.pages + 1, st.ops ++ [Op.newPage]⟩

/-- Embedding of the nested `draw_wrapped_lines(lines)`: one `drawString`
per line, cursor dropping `line_h` per line. -/
def draw_wrapped_lines (lines : List (List Char)) (st : LSt) : LSt :=
  ⟨st.y - line_h * (lines.length : ℚ), st.pages, st.ops ++ lines.map Op.text⟩

/-- `scale = min(usable_width / iw, page_usable_h / ih, 1.0)`. -/
def scaleFor (iw ih : ℚ) : ℚ :=
  min (min (usable_width / iw) (page_usable_h / ih)) 1

/-- The image prefetch block (lines 349–365): returns the decoded image
size (`none` on fetch/decode failure or missing link) and `img_est_h`. -/
def imgPrefetch (cw : Char → ℚ) (fetch : List Char → Option (ℕ × ℕ))
    (link : List Char) : Option (ℕ × ℕ) × ℚ :=
  if link = [] then (none, 0)
  else
    match fetch (convert_google_drive_link link) with
    | some (iw, ih) => (some (iw, ih), (ih : ℚ) * scaleFor iw ih + 20)
    | none =>
        (none, (wrapped_lines cw [] failMsg usable_width).length * line_h)

def qLines (cw : Char → ℚ) (r : Record) : List (List Char) :=
  wrapped_lines cw qPre r.q usable_width
def choiceLinesList (cw : Char → ℚ) (r : Record) : List (List (List Char)) :=
  (choicesOf r).map fun iv => wrapped_lines cw (choicePre iv.1) iv.2 usable_width
def ansLines (cw : Char → ℚ) (r : Record) : List (List Char) :=
  wrapped_lines cw ansPre r.ans usable_width
def catLines (cw : Char → ℚ) (r : Record) : List (List Char) :=
  wrapped_lines cw catPre r.cat usable_width

/-- The height-estimation pass (lines 367–379), including the Python
truthiness test `img_est_h if img_est_h else 0`. -/
def est_h (cw : Char → ℚ) (fetch : List Char → Option (ℕ × ℕ))
    (r : Record) : ℚ :=
  let imgEst := (imgPrefetch cw fetch r.link).2
  line_h * ((qLines cw r).length : ℚ)
    + ((choiceLinesList cw r).map fun ls => line_h * (ls.length : ℚ)).sum
    + (if imgEst = 0 then 0 else imgEst)
    + line_h * ((ansLines cw r).length : ℚ)
    + line_h * ((catLines cw r).length : ℚ) + 20

/-- The image drawing block (lines 390–409): recompute the fit, break the
page if the image alone does not fit, shrink to the remaining space if
needed, then either draw it (descending `nh + 20`) or — when
`pil.save`/`drawImage` raises `e` — draw the error fallback lines. -/
def drawImage_section (cw : Char → ℚ) (dE : Option (List Char)) (iw ih : ℕ)
    (st : LSt) : LSt :=
  let scale := scaleFor iw ih
  let nw := (iw : ℚ) * scale
  let nh := (ih : ℚ) * scale
  let st1 := if st.y - nh < bottom_margin then new_page st else st
  let remaining := st1.y - bottom_margin
  let nw2 := if nh > remaining then nw * (remaining / nh) else nw
  let nh2 := if nh > remaining then nh * (remaining / nh) else nh
  match dE with
  | some e =>
      draw_wrapped_lines (wrapped_lines cw [] (errOpen ++ e ++ [']'])
        usable_width) st1
  | none =>
      ⟨st1.y - (nh2 + 20), st1.pages,
        st1.ops ++ [Op.image (iw : ℚ) (ih : ℚ) nw2 nh2]⟩

/-- Per-record summary: cursor when the question starts (after the
pre-draw page-break decision), cursor after the trailing padding, the
estimated height, the number of page breaks after the question started,
and the drawing actions of this record. -/
structure RecResult where
  yStart : ℚ
  yEnd : ℚ
  estH : ℚ
  midBreaks : ℕ
  ops : List Op
deriving DecidableEq

def noRec : RecResult := ⟨0, 0, 0, 0, []⟩

/-- "This drawing action never upscales": whenever it is an image action,
the drawn size is bounded by the recorded original pixel size. -/
def imgOpLe (op : Op) : Prop :=
  ∀ iw ih nw nh : ℚ, op = Op.image iw ih nw nh → nw ≤ iw ∧ nh ≤ ih

/-- Carried loop state between records. -/
structure St where
  y : ℚ
  pages : ℕ
deriving DecidableEq

/-- Drawing the choice blocks, one `draw_wrapped_lines` per choice. -/
def foldDraw (lss : List (List (List Char))) (st : LSt) : LSt :=
  lss.foldl (fun s ls => draw_wrapped_lines ls s) st

/-- Lines 390–412: the image (or its fetch-failure fallback) part of the
loop body.  `pil` is the prefetch result, `dE2` the draw-time exception
oracle for this record's URL. -/
def imgStage (cw : Char → ℚ) (pil : Option (ℕ × ℕ))
    (dE2 : Option (List Char)) (link : List Char) (st : LSt) : LSt :=
  match pil with
  | some (iw, ih) => drawImage_section cw dE2 iw ih st
  | none =>
      if link = [] then st
      else draw_wrapped_lines (wrapped_lines cw [] failMsg usable_width) st

/-- Lines 417–420: trailing padding, breaking to an empty page when even
the padding does not fit. -/
def trailingStage (st : LSt) : LSt :=
  if st.y - 20 < bottom_margin then new_page st
  else ⟨st.y - 20, st.pages, st.ops⟩

/-- The pre-draw page-break decision (lines 381–383). -/
def preStage (est : ℚ) (st : LSt) : LSt :=
  if st.y - est < bottom_margin then new_page st else st

/-- The loop body of `create_pdf` for one record (lines 336–420). -/
def processRecord (cw : Char → ℚ) (fetch : List Char → Option (ℕ × ℕ))
    (dE : List Char → Option (List Char)) (st : St) (r : Record) :
    St × RecResult :=
  let pil := (imgPrefetch cw fetch r.link).1
  let est := est_h cw fetch r
  let l1 := preStage est ⟨st.y, st.pages, []⟩
  let l7 :=
    trailingStage
      (draw_wrapped_lines (catLines cw r)
        (draw_wrapped_lines (ansLines cw r)
          (imgStage cw pil (dE (convert_google_drive_link r.link)) r.link
            (foldDraw (choiceLinesList cw r)
              (draw_wrapped_lines (qLines cw r) l1)))))
  (⟨l7.y, l7.pages⟩, ⟨l1.y, l7.y, est, l7.pages - l1.pages, l7.ops⟩)

/-- The record loop of `create_pdf`. -/
def runRecords (cw : Char → ℚ) (fetch : List Char → Option (ℕ × ℕ))
    (dE : List Char → Option (List Char)) :
    St → List Record → St × List RecResult
  | st, [] => (st, [])
  | st, r :: rs =>
      let p := processRecord cw fetch dE st r
      let rest := runRecords cw fetch dE p.1 rs
      (rest.1, p.2 :: rest.2)

/-- The progress values reported by the loop: for the record at 0-based
index `k` the call is `progress(min((k+1) / max(total, 1), 1.0))`. -/
def progressReports (total : ℕ) : List ℚ :=
  (List.range total).map fun k : ℕ =>
    min (((k : ℚ) + 1) / ((max total 1 : ℕ) : ℚ)) 1

structure PdfOutput where
  finalY : ℚ
  pages : ℕ
  results : List RecResult
  progress : List ℚ
deriving DecidableEq

/-- Embedding of `create_pdf(records, ...)`: the canvas starts at the top
of the first page; the per-record results, and the progress values
reported when the `progress_on` session flag is set. -/
def create_pdf (cw : Char → ℚ) (fetch : List Char → Option (ℕ × ℕ))
    (dE : List Char → Option (List Char)) (records : List Record)
    (progressOn : Bool) : PdfOutput :=
  let out := runRecords cw fetch dE ⟨topY, 0⟩ records
  ⟨out.1.y, out.1.pages, out.2,
    if progressOn then progressReports records.length else []⟩

/-! ### Concrete test fixtures (used by witnesses and counterexamples):
two constant glyph-width tables, trivial oracles, and sample records. -/

def cwTen : Char → ℚ := fun _ => 10
def cw300 : Char → ℚ := fun _ => 300
def fetchNone : List Char → Option (ℕ × ℕ) := fun _ => none
def fetchSmall : List Char → Option (ℕ × ℕ) := fun _ => some (100, 50)
def dENone : List Char → Option (List Char) := fun _ => none
def emptyRec : Record := ⟨[], [], [], [], []⟩
def bigRec : Record := ⟨List.replicate 40 '問', [], [], [], []⟩
def badLinkRec : Record := ⟨[], [], [], [], "http://x/i.png".toList⟩

/-! ## Theorems on the string primitives and the link rewriter -/

theorem stringWidth_nil (cw : Char → ℚ) : stringWidth cw [] = 0 := rfl

theorem stringWidth_append (cw : Char → ℚ) (s t : List Char) :
    stringWidth cw (s ++ t) = stringWidth cw s + stringWidth cw t := by
  simp [stringWidth]

theorem stringWidth_nonneg (cw : Char → ℚ) (h : ∀ c, 0 ≤ cw c) (s : List Char) :
    0 ≤ stringWidth cw s := by
  induction s with
  | nil => simp [stringWidth]
  | cons c t ih =>
      have := h c
      simp only [stringWidth, List.map_cons, List.sum_cons]
      have ht : 0 ≤ stringWidth cw t := ih
      simp only [stringWidth] at ht
      linarith

theorem listContains_iff (pat s : List Char) :
    listContains pat s = true ↔ pat <:+: s := by
  induction s with
  | nil =>
      simp [listContains, List.isPrefixOf_iff_prefix, List.prefix_nil,
        List.infix_nil]
  | cons c rest ih =>
      simp only [listContains, Bool.or_eq_true, List.isPrefixOf_iff_prefix, ih]
      exact (List.infix_cons_iff).symm

theorem headD_mem_or (l : List α) (d : α) : l.headD d ∈ l ∨ l.headD d = d := by
  cases l with
  | nil => exact Or.inr rfl
  | cons x xs => exact Or.inl (by simp)

/-- Pieces produced by a single-character Python split never contain the
separator character. -/
theorem pySplitAux_single_not_mem (s0 : Char) :
    ∀ (l : List Char) (n : ℕ) (acc : List Char), s0 ∉ acc →
      ∀ p ∈ pySplitAux s0 [] l n acc, s0 ∉ p := by
  intro l
  induction l with
  | nil =>
      intro n acc hacc p hp
      simp only [pySplitAux, List.mem_singleton] at hp
      subst hp
      simpa using hacc
  | cons c rest ih =>
      intro n acc hacc p hp
      cases n with
      | succ k =>
          exact ih k acc hacc p hp
      | zero =>
          simp only [pySplitAux] at hp
          by_cases hpre : ([s0].isPrefixOf (c :: rest)) = true
          · rw [if_pos hpre] at hp
            rcases List.mem_cons.mp hp with h1 | h2
            · subst h1
              simpa using hacc
            · exact ih 0 [] (by simp) p h2
          · rw [if_neg hpre] at hp
            have hne : s0 ≠ c := by
              simp only [List.isPrefixOf, List.isPrefixOf_nil_left,
                Bool.and_true, beq_iff_eq] at hpre
              exact hpre
            exact ih 0 (c :: acc) (by simp [hacc, hne]) p hp

theorem slash_not_mem_headD (s : List Char) :
    '/' ∉ (pySplit ['/'] s).headD [] := by
  have hall : ∀ p ∈ pySplitAux '/' [] s 0 [], '/' ∉ p :=
    pySplitAux_single_not_mem '/' s 0 [] (by simp)
  rcases headD_mem_or (pySplit ['/'] s) [] with hmem | heq
  · exact hall _ hmem
  · rw [heq]
    simp

/-- The rewritten URL `ucHead ++ fid` contains no `/file/d/` segment when
`fid` is slash-free: `/file/d/` ends in a slash, so an occurrence would
have to end inside `ucHead`, which contains no such segment. -/
theorem fdSeg_not_infix (fid : List Char) (h : '/' ∉ fid) :
    ¬ fdSeg <:+: ucHead ++ fid := by
  rintro ⟨s, t, heq⟩
  rcases List.append_eq_append_iff.mp heq with ⟨a2, ha, _⟩ | ⟨c2, hc, hd⟩
  · have hinf : fdSeg <:+: ucHead := ⟨s, a2, by rw [ha, List.append_assoc]⟩
    have : listContains fdSeg ucHead = true := (listContains_iff _ _).mpr hinf
    exact absurd this (by decide)
  · by_cases hc0 : c2 = []
    · subst hc0
      have hinf : fdSeg <:+: ucHead := ⟨s, [], by simpa using hc⟩
      have : listContains fdSeg ucHead = true := (listContains_iff _ _).mpr hinf
      exact absurd this (by decide)
    · have hlast : (s ++ fdSeg).getLast? = some '/' := by
        rw [List.getLast?_append_of_ne_nil s (by decide)]
        decide
      rw [hc, List.getLast?_append_of_ne_nil ucHead hc0] at hlast
      have hmem : '/' ∈ c2 := List.mem_of_getLast?_eq_some hlast
      have : '/' ∈ fid := by
        rw [hd]
        exact List.mem_append_left t hmem
      exact h this

/-- C7.  The Google-Drive share link is rewritten to the canonical
`uc?export=view&id=` form, and any URL lacking either marker passes
through unchanged. -/
theorem convert_google_drive_link_rewrite :
    (convert_google_drive_link
        "https://drive.google.com/file/d/ABC123/view?usp=sharing".toList
      = "https://drive.google.com/uc?export=view&id=ABC123".toList)
    ∧ ∀ url : List Char,
        ¬(listContains gdMark url = true ∧ listContains fdSeg url = true) →
        convert_google_drive_link url = url := by
  refine ⟨by decide, ?_⟩
  intro url h
  simp only [convert_google_drive_link]
  rw [if_neg]
  simpa [Bool.and_eq_true] using h

/-- Witness for C7 at a concrete non-Drive URL. -/
theorem convert_google_drive_link_rewrite_witness :
    ¬(listContains gdMark "https://example.com/img.png".toList = true ∧
        listContains fdSeg "https://example.com/img.png".toList = true) ∧
      convert_google_drive_link "https://example.com/img.png".toList
        = "https://example.com/img.png".toList :=
  ⟨by decide, convert_google_drive_link_rewrite.2 _ (by decide)⟩

/-- C10.  Link normalization is idempotent: a rewritten URL no longer
contains the `/file/d/` segment, so a second application passes it
through unchanged. -/
theorem convert_google_drive_link_idempotent (url : List Char) :
    convert_google_drive_link (convert_google_drive_link url)
      = convert_google_drive_link url := by
  by_cases hc : (listContains gdMark url && listContains fdSeg url) = true
  · rcases hm : pySplit fdSeg url with _ | ⟨p1, _ | ⟨second, rest⟩⟩
    · have hr : convert_google_drive_link url = url := by
        simp only [convert_google_drive_link]
        rw [if_pos hc, hm]
      rw [hr]
      exact hr
    · have hr : convert_google_drive_link url = url := by
        simp only [convert_google_drive_link]
        rw [if_pos hc, hm]
      rw [hr]
      exact hr
    · have hr : convert_google_drive_link url
          = ucHead ++ (pySplit ['/'] second).headD [] := by
        simp only [convert_google_drive_link]
        rw [if_pos hc, hm]
      have hfid : '/' ∉ (pySplit ['/'] second).headD [] :=
        slash_not_mem_headD second
      have hninf : ¬ fdSeg <:+: ucHead ++ (pySplit ['/'] second).headD [] :=
        fdSeg_not_infix _ hfid
      have hfalse :
          listContains fdSeg (ucHead ++ (pySplit ['/'] second).headD [])
            = false := by
        rw [← Bool.not_eq_true]
        intro habs
        exact hninf ((listContains_iff _ _).mp habs)
      have hX :
          ¬ ((listContains gdMark (ucHead ++ (pySplit ['/'] second).headD []) &&
              listContains fdSeg (ucHead ++ (pySplit ['/'] second).headD []))
            = true) := by
        intro habs
        rw [Bool.and_eq_true] at habs
        rw [habs.2] at hfalse
        exact absurd hfalse (by decide)
      rw [hr]
      simp only [convert_google_drive_link]
      rw [if_neg hX]
  · have hr : convert_google_drive_link url = url := by
      simp only [convert_google_drive_link]
      rw [if_neg hc]
    rw [hr]
    exact hr

/-! ## Theorems on the line wrapper -/

theorem wrapAux_join (cw : Char → ℚ) (mw : ℚ) :
    ∀ (l buf : List Char), (wrapAux cw mw l buf).flatten = buf ++ l := by
  intro l
  induction l with
  | nil =>
      intro buf
      by_cases hb : buf = []
      · simp [wrapAux, hb]
      · simp [wrapAux, hb]
  | cons ch rest ih =>
      intro buf
      simp only [wrapAux]
      by_cases hw : stringWidth cw (buf ++ [ch]) ≤ mw
      · rw [if_pos hw, ih (buf ++ [ch])]
        simp
      · rw [if_neg hw]
        simp only [List.flatten_cons, ih [ch]]
        simp

theorem wrapAux_fits (cw : Char → ℚ) (mw : ℚ) :
    ∀ (l buf : List Char), (stringWidth cw buf ≤ mw ∨ buf.length = 1) →
      ∀ ln ∈ wrapAux cw mw l buf,
        stringWidth cw ln ≤ mw ∨ ln.length = 1 := by
  intro l
  induction l with
  | nil =>
      intro buf hbuf ln hln
      by_cases hb : buf = []
      · simp [wrapAux, hb] at hln
      · simp only [wrapAux, if_neg hb, List.mem_singleton] at hln
        subst hln
        exact hbuf
  | cons ch rest ih =>
      intro buf hbuf ln hln
      simp only [wrapAux] at hln
      by_cases hw : stringWidth cw (buf ++ [ch]) ≤ mw
      · rw [if_pos hw] at hln
        exact ih (buf ++ [ch]) (Or.inl hw) ln hln
      · rw [if_neg hw] at hln
        rcases List.mem_cons.mp hln with h1 | h2
        · subst h1
          exact hbuf
        · exact ih [ch] (Or.inr rfl) ln h2

/-- C4.  Wrap correctness: the returned lines concatenate (without
separators) back to the input exactly, and every line fits the width
budget except possibly a single character that alone exceeds it. -/
theorem wrap_text_correct (cw : Char → ℚ) (s : List Char) (mw : ℚ)
    (hmw : 0 < mw) :
    (wrap_text cw s mw).flatten = s ∧
      ∀ ln ∈ wrap_text cw s mw,
        stringWidth cw ln ≤ mw ∨
          (ln.length = 1 ∧ mw < stringWidth cw ln) := by
  constructor
  · by_cases hs : s = []
    · simp [wrap_text, hs]
    · simp only [wrap_text, if_neg hs]
      simpa using wrapAux_join cw mw s []
  · intro ln hln
    have hbase : stringWidth cw ln ≤ mw ∨ ln.length = 1 := by
      by_cases hs : s = []
      · simp only [wrap_text, if_pos hs, List.mem_singleton] at hln
        subst hln
        exact Or.inl (by simpa [stringWidth] using le_of_lt hmw)
      · simp only [wrap_text, if_neg hs] at hln
        exact wrapAux_fits cw mw s []
          (Or.inl (by simpa [stringWidth] using le_of_lt hmw)) ln hln
    rcases hbase with h1 | h2
    · exact Or.inl h1
    · by_cases hle : stringWidth cw ln ≤ mw
      · exact Or.inl hle
      · exact Or.inr ⟨h2, lt_of_not_le hle⟩

/-- Witness for C4: concrete wrap at width 400 with 250-wide glyphs. -/
theorem wrap_text_correct_witness :
    (0 : ℚ) < 400 ∧
      (wrap_text (fun _ => (250 : ℚ)) "ab".toList 400).flatten = "ab".toList :=
  ⟨by norm_num,
    (wrap_text_correct (fun _ => (250 : ℚ)) "ab".toList 400 (by norm_num)).1⟩

theorem wrapAux_length_pos (cw : Char → ℚ) (mw : ℚ) :
    ∀ (l buf : List Char), buf ≠ [] ∨ l ≠ [] →
      1 ≤ (wrapAux cw mw l buf).length := by
  intro l
  induction l with
  | nil =>
      intro buf hbuf
      have hb : buf ≠ [] := by
        rcases hbuf with h | h
        · exact h
        · exact absurd rfl h
      simp [wrapAux, hb]
  | cons ch rest ih =>
      intro buf _
      simp only [wrapAux]
      by_cases hw : stringWidth cw (buf ++ [ch]) ≤ mw
      · rw [if_pos hw]
        exact ih (buf ++ [ch]) (Or.inl (by simp))
      · rw [if_neg hw]
        simp

theorem wrapAux_oversized_self (cw : Char → ℚ) (mw : ℚ)
    (h0 : ∀ c, 0 ≤ cw c) :
    ∀ (l : List Char) (c : Char), mw < cw c →
      [c] ∈ wrapAux cw mw l [c] := by
  intro l
  induction l with
  | nil =>
      intro c _
      simp [wrapAux]
  | cons ch rest _
  =>
      intro c hcw
      have hgt : ¬ stringWidth cw ([c] ++ [ch]) ≤ mw := by
        have h1 : stringWidth cw ([c] ++ [ch]) = cw c + cw ch := by
          simp [stringWidth]
        have := h0 ch
        rw [h1]
        push_neg
        linarith
      simp only [wrapAux, if_neg hgt]
      exact List.mem_cons_self _ _

theorem wrapAux_oversized_mem (cw : Char → ℚ) (mw : ℚ)
    (h0 : ∀ c, 0 ≤ cw c) :
    ∀ (l buf : List Char) (c : Char), c ∈ l → mw < cw c →
      [c] ∈ wrapAux cw mw l buf := by
  intro l
  induction l with
  | nil =>
      intro buf c hc
      exact absurd hc (List.not_mem_nil c)
  | cons ch rest ih =>
      intro buf c hc hcw
      rcases List.mem_cons.mp hc with h1 | h2
      · subst h1
        have hgt : ¬ stringWidth cw (buf ++ [c]) ≤ mw := by
          have h1 : stringWidth cw (buf ++ [c]) = stringWidth cw buf + cw c :=
            stringWidth_append cw buf [c] ▸ by simp [stringWidth]
          have hb := stringWidth_nonneg cw h0 buf
          rw [h1]
          push_neg
          linarith
        simp only [wrapAux, if_neg hgt]
        exact List.mem_cons_of_mem _ (wrapAux_oversized_self cw mw h0 rest c hcw)
      · simp only [wrapAux]
        by_cases hw : stringWidth cw (buf ++ [ch]) ≤ mw
        · rw [if_pos hw]
          exact ih (buf ++ [ch]) c h2 hcw
        · rw [if_neg hw]
          exact List.mem_cons_of_mem _ (ih [ch] c h2 hcw)

/-- C5.  `wrap_text` is total (it is a structurally recursive function);
empty input yields exactly one empty line, non-empty input at least one
line, and an input character wider than the budget ends up alone as its
own line. -/
theorem wrap_text_oversized (cw : Char → ℚ) (h0 : ∀ c, 0 ≤ cw c)
    (s : List Char) (mw : ℚ) :
    wrap_text cw [] mw = [[]] ∧
      1 ≤ (wrap_text cw s mw).length ∧
      ∀ c ∈ s, mw < cw c → [c] ∈ wrap_text cw s mw := by
  refine ⟨by simp [wrap_text], ?_, ?_⟩
  · by_cases hs : s = []
    · simp [wrap_text, hs]
    · simp only [wrap_text, if_neg hs]
      exact wrapAux_length_pos cw mw s [] (Or.inr hs)
  · intro c hc hcw
    have hs : s ≠ [] := by
      intro h
      rw [h] at hc
      exact absurd hc (List.not_mem_nil c)
    simp only [wrap_text, if_neg hs]
    exact wrapAux_oversized_mem cw mw h0 s [] c hc hcw

/-- Witness for C5: a 500-wide character at width budget 400 becomes its
own line. -/
theorem wrap_text_oversized_witness :
    [('a' : Char)] ∈ wrap_text (fun _ => (500 : ℚ)) "ba".toList 400 :=
  (wrap_text_oversized (fun _ => (500 : ℚ)) (fun _ => by norm_num)
    "ba".toList 400).2.2 'a' (by decide) (by norm_num)

/-! ## Evaluation lemmas for `wrap_text` at the fixtures -/

/-- With a constant glyph width `w` such that one glyph fits but two do
not, wrapping puts every character on its own line. -/
theorem wrapAux_const (w mw : ℚ) (h2 : ¬ w + w ≤ mw) :
    ∀ (l : List Char) (c : Char),
      wrapAux (fun _ => w) mw l [c] = [c] :: l.map (fun c => [c]) := by
  intro l
  induction l with
  | nil =>
      intro c
      simp [wrapAux]
  | cons ch rest ih =>
      intro c
      have hno : ¬ stringWidth (fun _ => w) ([c] ++ [ch]) ≤ mw := by
        simpa [stringWidth] using h2
      simp only [wrapAux, if_neg hno, ih ch, List.map_cons]

theorem wrap_text_const (w mw : ℚ) (h1 : w ≤ mw) (h2 : ¬ w + w ≤ mw)
    (s : List Char) (hs : s ≠ []) :
    wrap_text (fun _ => w) s mw = s.map fun c => [c] := by
  cases s with
  | nil => exact absurd rfl hs
  | cons x xs =>
      have hyes : stringWidth (fun _ => w) [x] ≤ mw := by
        simpa [stringWidth] using h1
      simp only [wrap_text, if_neg hs, wrapAux, List.nil_append]
      rw [if_pos hyes]
      exact wrapAux_const w mw h2 xs x

/-- When the whole string fits the budget, it wraps to a single line. -/
theorem wrapAux_fit (cw : Char → ℚ) (mw : ℚ) (h0 : ∀ c, 0 ≤ cw c) :
    ∀ (l buf : List Char), buf ≠ [] → stringWidth cw (buf ++ l) ≤ mw →
      wrapAux cw mw l buf = [buf ++ l] := by
  intro l
  induction l with
  | nil =>
      intro buf hbuf _
      simp [wrapAux, hbuf]
  | cons ch rest ih =>
      intro buf hbuf hfit
      have hdec : stringWidth cw (buf ++ ch :: rest)
          = stringWidth cw (buf ++ [ch]) + stringWidth cw rest := by
        rw [show buf ++ ch :: rest = (buf ++ [ch]) ++ rest by simp]
        exact stringWidth_append cw _ _
      have hyes : stringWidth cw (buf ++ [ch]) ≤ mw := by
        have := stringWidth_nonneg cw h0 rest
        rw [hdec] at hfit
        linarith
      rw [wrapAux, if_pos hyes, ih (buf ++ [ch]) (by simp) (by simpa using hfit)]
      simp

theorem wrap_text_fit (cw : Char → ℚ) (mw : ℚ) (h0 : ∀ c, 0 ≤ cw c)
    (s : List Char) (hs : s ≠ []) (h : stringWidth cw s ≤ mw) :
    wrap_text cw s mw = [s] := by
  cases s with
  | nil => exact absurd rfl hs
  | cons x xs =>
      have hx : stringWidth cw [x] ≤ mw := by
        have hrest := stringWidth_nonneg cw h0 xs
        have hdec : stringWidth cw (x :: xs)
            = stringWidth cw [x] + stringWidth cw xs := by
          rw [show (x :: xs : List Char) = [x] ++ xs by simp]
          exact stringWidth_append cw _ _
        rw [hdec] at h
        linarith
      simp only [wrap_text, if_neg hs, wrapAux, List.nil_append]
      rw [if_pos hx]
      have := wrapAux_fit cw mw h0 xs [x] (by simp) (by simpa using h)
      simpa using this

/-! ## Stage lemmas for the layout engine -/

theorem draw_wrapped_lines_pages (L : List (List Char)) (st : LSt) :
    (draw_wrapped_lines L st).pages = st.pages := rfl

theorem draw_wrapped_lines_y (L : List (List Char)) (st : LSt) :
    (draw_wrapped_lines L st).y = st.y - line_h * (L.length : ℚ) := rfl

theorem draw_wrapped_lines_ops (L : List (List Char)) (st : LSt) :
    (draw_wrapped_lines L st).ops = st.ops ++ L.map Op.text := rfl

theorem new_page_y (st : LSt) : (new_page st).y = topY := rfl

theorem new_page_pages (st : LSt) : (new_page st).pages = st.pages + 1 := rfl

theorem foldDraw_pages : ∀ (lss : List (List (List Char))) (st : LSt),
    (foldDraw lss st).pages = st.pages := by
  intro lss
  induction lss with
  | nil => intro st; rfl
  | cons ls rest ih =>
      intro st
      show (foldDraw rest (draw_wrapped_lines ls st)).pages = st.pages
      rw [ih]
      rfl

theorem foldDraw_y : ∀ (lss : List (List (List Char))) (st : LSt),
    (foldDraw lss st).y
      = st.y - ((lss.map fun ls => line_h * (ls.length : ℚ)).sum) := by
  intro lss
  induction lss with
  | nil => intro st; simp [foldDraw]
  | cons ls rest ih =>
      intro st
      show (foldDraw rest (draw_wrapped_lines ls st)).y = _
      rw [ih, draw_wrapped_lines_y]
      simp only [List.map_cons, List.sum_cons]
      ring

theorem preStage_of_break {est : ℚ} {st : LSt}
    (h : st.y - est < bottom_margin) : preStage est st = new_page st :=
  if_pos h

theorem preStage_of_fit {est : ℚ} {st : LSt}
    (h : ¬ st.y - est < bottom_margin) : preStage est st = st :=
  if_neg h

theorem trailingStage_of_fit {st : LSt} (h : ¬ st.y - 20 < bottom_margin) :
    trailingStage st = ⟨st.y - 20, st.pages, st.ops⟩ :=
  if_neg h

theorem trailingStage_of_break {st : LSt} (h : st.y - 20 < bottom_margin) :
    trailingStage st = new_page st :=
  if_pos h

theorem trailingStage_pages_ge (st : LSt) :
    st.pages ≤ (trailingStage st).pages := by
  by_cases h : st.y - 20 < bottom_margin
  · rw [trailingStage_of_break h, new_page_pages]
    omega
  · rw [trailingStage_of_fit h]

/-- When the scaled image fits below the cursor, the image block draws it
at the prefetch scale and descends exactly `nh + 20`, with no page
break. -/
theorem drawImage_section_of_fit (cw : Char → ℚ) {iw ih : ℕ} {st : LSt}
    (hfit : ¬ st.y - (ih : ℚ) * scaleFor iw ih < bottom_margin) :
    drawImage_section cw none iw ih st
      = ⟨st.y - ((ih : ℚ) * scaleFor iw ih + 20), st.pages,
          st.ops ++ [Op.image (iw : ℚ) (ih : ℚ)
            ((iw : ℚ) * scaleFor iw ih) ((ih : ℚ) * scaleFor iw ih)]⟩ := by
  have hrem : ¬ (ih : ℚ) * scaleFor iw ih > st.y - bottom_margin := by
    push_neg at hfit ⊢
    linarith
  simp only [drawImage_section, if_neg hfit, if_neg hrem]

theorem drawImage_section_pages_of_break (cw : Char → ℚ)
    (dE2 : Option (List Char)) {iw ih : ℕ} {st : LSt}
    (hfit : st.y - (ih : ℚ) * scaleFor iw ih < bottom_margin) :
    (drawImage_section cw dE2 iw ih st).pages = st.pages + 1 := by
  cases dE2 with
  | none => simp only [drawImage_section, if_pos hfit, new_page_pages]
  | some e =>
      simp only [drawImage_section, if_pos hfit, draw_wrapped_lines_pages,
        new_page_pages]

theorem drawImage_section_pages_ge (cw : Char → ℚ)
    (dE2 : Option (List Char)) (iw ih : ℕ) (st : LSt) :
    st.pages ≤ (drawImage_section cw dE2 iw ih st).pages := by
  by_cases hfit : st.y - (ih : ℚ) * scaleFor iw ih < bottom_margin
  · rw [drawImage_section_pages_of_break cw dE2 hfit]
    omega
  · cases dE2 with
    | none => rw [drawImage_section_of_fit cw hfit]
    | some e =>
        simp only [drawImage_section, if_neg hfit, draw_wrapped_lines_pages]
        exact le_refl _

theorem imgStage_pages_ge (cw : Char → ℚ) (pil : Option (ℕ × ℕ))
    (dE2 : Option (List Char)) (link : List Char) (st : LSt) :
    st.pages ≤ (imgStage cw pil dE2 link st).pages := by
  cases pil with
  | some d => exact drawImage_section_pages_ge cw dE2 d.1 d.2 st
  | none =>
      by_cases hl : link = []
      · simp [imgStage, hl]
      · simp [imgStage, hl, draw_wrapped_lines_pages]

/-! ## C1: the page-break invariant -/

/-- Spelled-out form of the per-record result of the loop body. -/
theorem processRecord_eq (cw : Char → ℚ) (fetch : List Char → Option (ℕ × ℕ))
    (dE : List Char → Option (List Char)) (st : St) (r : Record) :
    (processRecord cw fetch dE st r).2
      = ⟨(preStage (est_h cw fetch r) ⟨st.y, st.pages, []⟩).y,
          (trailingStage
            (draw_wrapped_lines (catLines cw r)
              (draw_wrapped_lines (ansLines cw r)
                (imgStage cw (imgPrefetch cw fetch r.link).1
                  (dE (convert_google_drive_link r.link)) r.link
                  (foldDraw (choiceLinesList cw r)
                    (draw_wrapped_lines (qLines cw r)
                      (preStage (est_h cw fetch r) ⟨st.y, st.pages, []⟩))))))).y,
          est_h cw fetch r,
          (trailingStage
            (draw_wrapped_lines (catLines cw r)
              (draw_wrapped_lines (ansLines cw r)
                (imgStage cw (imgPrefetch cw fetch r.link).1
                  (dE (convert_google_drive_link r.link)) r.link
                  (foldDraw (choiceLinesList cw r)
                    (draw_wrapped_lines (qLines cw r)
                      (preStage (est_h cw fetch r) ⟨st.y, st.pages, []⟩))))))).pages
            - (preStage (est_h cw fetch r) ⟨st.y, st.pages, []⟩).pages,
          (trailingStage
            (draw_wrapped_lines (catLines cw r)
              (draw_wrapped_lines (ansLines cw r)
                (imgStage cw (imgPrefetch cw fetch r.link).1
                  (dE (convert_google_drive_link r.link)) r.link
                  (foldDraw (choiceLinesList cw r)
                    (draw_wrapped_lines (qLines cw r)
                      (preStage (est_h cw fetch r) ⟨st.y, st.pages, []⟩))))))).ops⟩ :=
  rfl

/-- C1 (amended).  Every record's question block starts either with
`y - est_h ≥ bottom_margin` or at the very top of a freshly opened page
(the latter can leave `y - est_h < bottom_margin` when a single record's
estimate exceeds a whole page); and whenever the current page lacks the
estimated room, the question starts at the top of a fresh page. -/
theorem question_start_amended :
    (∀ (cw : Char → ℚ) (fetch : List Char → Option (ℕ × ℕ))
        (dE : List Char → Option (List Char)) (recs : List Record) (st : St),
        ∀ res ∈ (runRecords cw fetch dE st recs).2,
          bottom_margin ≤ res.yStart - res.estH ∨ res.yStart = topY) ∧
    (∀ (cw : Char → ℚ) (fetch : List Char → Option (ℕ × ℕ))
        (dE : List Char → Option (List Char)) (st : St) (r : Record),
        st.y - est_h cw fetch r < bottom_margin →
          (processRecord cw fetch dE st r).2.yStart = topY) := by
  constructor
  · intro cw fetch dE recs
    induction recs with
    | nil =>
        intro st res hres
        simp [runRecords] at hres
    | cons r rs ih =>
        intro st res hres
        simp only [runRecords] at hres
        rcases List.mem_cons.mp hres with h1 | h2
        · subst h1
          rw [processRecord_eq]
          by_cases hbr : (⟨st.y, st.pages, []⟩ : LSt).y - est_h cw fetch r
              < bottom_margin
          · rw [preStage_of_break hbr, new_page_y]
            exact Or.inr rfl
          · rw [preStage_of_fit hbr]
            left
            have := not_lt.mp hbr
            linarith [this]
        · exact ih (processRecord cw fetch dE st r).1 res h2
  · intro cw fetch dE st r h
    have hy : (processRecord cw fetch dE st r).2.yStart
        = (preStage (est_h cw fetch r) ⟨st.y, st.pages, []⟩).y := rfl
    rw [hy, preStage_of_break h, new_page_y]

theorem foldDraw_nil (st : LSt) : foldDraw [] st = st := rfl

theorem cwTen_nonneg : ∀ c, 0 ≤ cwTen c := by
  intro c
  norm_num [cwTen]

theorem usable_width_val : usable_width = 65440 / 127 := by
  norm_num [usable_width, A4w, left_margin, right_margin]

theorem topY_val : topY = 101840 / 127 := by
  norm_num [topY, A4h, top_margin]

theorem qLines_emptyRec : qLines cwTen emptyRec = [qPre] := by
  show wrap_text cwTen (qPre ++ emptyRec.q) usable_width = [qPre]
  have h : stringWidth cwTen (qPre ++ emptyRec.q) ≤ usable_width := by
    rw [usable_width_val]
    norm_num [stringWidth, cwTen, qPre, emptyRec]
  rw [wrap_text_fit cwTen usable_width cwTen_nonneg _ (by simp [qPre, emptyRec]) h]
  simp [emptyRec]

theorem ansLines_emptyRec : ansLines cwTen emptyRec = [ansPre] := by
  show wrap_text cwTen (ansPre ++ emptyRec.ans) usable_width = [ansPre]
  have h : stringWidth cwTen (ansPre ++ emptyRec.ans) ≤ usable_width := by
    rw [usable_width_val]
    norm_num [stringWidth, cwTen, ansPre, emptyRec]
  rw [wrap_text_fit cwTen usable_width cwTen_nonneg _ (by simp [ansPre, emptyRec]) h]
  simp [emptyRec]

theorem catLines_emptyRec : catLines cwTen emptyRec = [catPre] := by
  show wrap_text cwTen (catPre ++ emptyRec.cat) usable_width = [catPre]
  have h : stringWidth cwTen (catPre ++ emptyRec.cat) ≤ usable_width := by
    rw [usable_width_val]
    norm_num [stringWidth, cwTen, catPre, emptyRec]
  rw [wrap_text_fit cwTen usable_width cwTen_nonneg _ (by simp [catPre, emptyRec]) h]
  simp [emptyRec]

theorem choicesOf_emptyRec : choicesOf emptyRec = [] := rfl

theorem choiceLinesList_emptyRec : choiceLinesList cwTen emptyRec = [] := by
  simp [choiceLinesList, choicesOf_emptyRec]

theorem est_h_emptyRec : est_h cwTen fetchNone emptyRec = 74 := by
  simp only [est_h, qLines_emptyRec, ansLines_emptyRec, catLines_emptyRec,
    choiceLinesList_emptyRec]
  norm_num [imgPrefetch, emptyRec, line_h]

/-! Evaluation at the over-tall record `bigRec` (40 over-wide glyphs): with
glyph width 300 every character is its own line, so the question wraps to
45 lines and the whole record estimates to 974 points, more than a full
page can hold. -/

theorem qLines_bigRec :
    qLines cw300 bigRec = (qPre ++ List.replicate 40 '問').map fun c => [c] := by
  show wrap_text cw300 (qPre ++ bigRec.q) usable_width = _
  have h300 : cw300 = fun _ => (300 : ℚ) := rfl
  rw [h300, show bigRec.q = List.replicate 40 '問' from rfl]
  exact wrap_text_const 300 usable_width
    (by rw [usable_width_val]; norm_num)
    (by rw [usable_width_val]; norm_num)
    _ (by simp [qPre])

theorem ansLines_bigRec :
    ansLines cw300 bigRec = ansPre.map fun c => [c] := by
  show wrap_text cw300 (ansPre ++ bigRec.ans) usable_width = _
  have h300 : cw300 = fun _ => (300 : ℚ) := rfl
  rw [h300, show bigRec.ans = [] from rfl, List.append_nil]
  exact wrap_text_const 300 usable_width
    (by rw [usable_width_val]; norm_num)
    (by rw [usable_width_val]; norm_num)
    _ (by simp [ansPre])

theorem catLines_bigRec :
    catLines cw300 bigRec = catPre.map fun c => [c] := by
  show wrap_text cw300 (catPre ++ bigRec.cat) usable_width = _
  have h300 : cw300 = fun _ => (300 : ℚ) := rfl
  rw [h300, show bigRec.cat = [] from rfl, List.append_nil]
  exact wrap_text_const 300 usable_width
    (by rw [usable_width_val]; norm_num)
    (by rw [usable_width_val]; norm_num)
    _ (by simp [catPre])

theorem choiceLinesList_bigRec : choiceLinesList cw300 bigRec = [] := by
  simp [choiceLinesList, choicesOf, bigRec]

theorem est_h_bigRec : est_h cw300 fetchNone bigRec = 974 := by
  simp only [est_h, qLines_bigRec, ansLines_bigRec, catLines_bigRec,
    choiceLinesList_bigRec]
  norm_num [imgPrefetch, bigRec, line_h, qPre, ansPre, catPre]

/-- C1 (counterexample).  On the single over-tall record `bigRec`, the
question block starts (at the top of a fresh page) with
`y - est_h < bottom_margin`: the claimed invariant is violated. -/
theorem question_start_invariant_cex :
    ¬ (bottom_margin
        ≤ ((create_pdf cw300 fetchNone dENone [bigRec] false).results.headD
            noRec).yStart
          - ((create_pdf cw300 fetchNone dENone [bigRec] false).results.headD
              noRec).estH) := by
  have hres : (create_pdf cw300 fetchNone dENone [bigRec] false).results.headD
      noRec = (processRecord cw300 fetchNone dENone ⟨topY, 0⟩ bigRec).2 := rfl
  have hyS : (processRecord cw300 fetchNone dENone ⟨topY, 0⟩ bigRec).2.yStart
      = (preStage (est_h cw300 fetchNone bigRec) ⟨topY, 0, []⟩).y := rfl
  have hE : (processRecord cw300 fetchNone dENone ⟨topY, 0⟩ bigRec).2.estH
      = est_h cw300 fetchNone bigRec := rfl
  have hbr : ((⟨topY, 0, []⟩ : LSt)).y - est_h cw300 fetchNone bigRec
      < bottom_margin := by
    show topY - est_h cw300 fetchNone bigRec < bottom_margin
    rw [est_h_bigRec, topY_val]
    norm_num [bottom_margin]
  rw [hres, hyS, hE, preStage_of_break hbr, new_page_y, est_h_bigRec, topY_val]
  norm_num [bottom_margin]

/-- Witness for the amended C1 at a concrete run. -/
theorem question_start_amended_witness :
    bottom_margin
        ≤ ((runRecords cwTen fetchNone dENone ⟨topY, 0⟩ [emptyRec]).2.headD
            noRec).yStart
          - ((runRecords cwTen fetchNone dENone ⟨topY, 0⟩ [emptyRec]).2.headD
              noRec).estH
      ∨ ((runRecords cwTen fetchNone dENone ⟨topY, 0⟩ [emptyRec]).2.headD
          noRec).yStart = topY :=
  question_start_amended.1 cwTen fetchNone dENone [emptyRec] ⟨topY, 0⟩
    _ (List.mem_cons_self _ _)

/-! ## C2: height-estimate / draw agreement -/

theorem wrap_text_length_pos (cw : Char → ℚ) (mw : ℚ) (s : List Char) :
    1 ≤ (wrap_text cw s mw).length := by
  by_cases hs : s = []
  · simp [wrap_text, hs]
  · simp only [wrap_text, if_neg hs]
    exact wrapAux_length_pos cw mw s [] (Or.inr hs)

theorem page_usable_h_val : page_usable_h = 94220 / 127 := by
  norm_num [page_usable_h, A4h, top_margin, bottom_margin]

theorem scaleFor_nonneg (iw ih : ℕ) : 0 ≤ scaleFor (iw : ℚ) (ih : ℚ) := by
  refine le_min (le_min ?_ ?_) (by norm_num)
  · exact div_nonneg (by rw [usable_width_val]; norm_num) (Nat.cast_nonneg iw)
  · exact div_nonneg (by rw [page_usable_h_val]; norm_num) (Nat.cast_nonneg ih)

theorem scaleFor_le_one (iw ih : ℚ) : scaleFor iw ih ≤ 1 :=
  min_le_right _ _

/-- Core of C2: starting from the post-page-break cursor state `l1`, if
the rest of the record's drawing performs no page break, the cursor
descends by exactly the estimated height. -/
theorem record_body_descent (cw : Char → ℚ)
    (fetch : List Char → Option (ℕ × ℕ)) (r : Record)
    (dE2 : Option (List Char)) (hdE2 : dE2 = none) (l1 : LSt)
    (hmid :
      (trailingStage (draw_wrapped_lines (catLines cw r)
        (draw_wrapped_lines (ansLines cw r)
          (imgStage cw (imgPrefetch cw fetch r.link).1 dE2 r.link
            (foldDraw (choiceLinesList cw r)
              (draw_wrapped_lines (qLines cw r) l1)))))).pages
        - l1.pages = 0) :
    l1.y -
      (trailingStage (draw_wrapped_lines (catLines cw r)
        (draw_wrapped_lines (ansLines cw r)
          (imgStage cw (imgPrefetch cw fetch r.link).1 dE2 r.link
            (foldDraw (choiceLinesList cw r)
              (draw_wrapped_lines (qLines cw r) l1)))))).y
      = est_h cw fetch r := by
  subst hdE2
  set l2 := draw_wrapped_lines (qLines cw r) l1 with hl2
  set l3 := foldDraw (choiceLinesList cw r) l2 with hl3
  set l4 := imgStage cw (imgPrefetch cw fetch r.link).1 none r.link l3 with hl4
  set l5 := draw_wrapped_lines (ansLines cw r) l4 with hl5
  set l6 := draw_wrapped_lines (catLines cw r) l5 with hl6
  have hy2 : l2.y = l1.y - line_h * ((qLines cw r).length : ℚ) := rfl
  have hp2 : l2.pages = l1.pages := rfl
  have hy3 : l3.y
      = l2.y - ((choiceLinesList cw r).map fun ls => line_h * (ls.length : ℚ)).sum :=
    foldDraw_y _ _
  have hp3 : l3.pages = l2.pages := foldDraw_pages _ _
  have hp4 : l3.pages ≤ l4.pages :=
    imgStage_pages_ge cw (imgPrefetch cw fetch r.link).1 none r.link l3
  have hy5 : l5.y = l4.y - line_h * ((ansLines cw r).length : ℚ) := rfl
  have hp5 : l5.pages = l4.pages := rfl
  have hy6 : l6.y = l5.y - line_h * ((catLines cw r).length : ℚ) := rfl
  have hp6 : l6.pages = l5.pages := rfl
  by_cases htr : l6.y - 20 < bottom_margin
  · exfalso
    have h7 : (trailingStage l6).pages = l6.pages + 1 := by
      rw [trailingStage_of_break htr, new_page_pages]
    omega
  · have h7y : (trailingStage l6).y = l6.y - 20 := by
      rw [trailingStage_of_fit htr]
    have h7p : (trailingStage l6).pages = l6.pages := by
      rw [trailingStage_of_fit htr]
    simp only [est_h]
    rw [h7y]
    by_cases hlink : r.link = []
    · have hie : (imgPrefetch cw fetch r.link).2 = 0 := by
        simp [imgPrefetch, hlink]
      have hy4 : l4.y = l3.y := by
        have hpil : (imgPrefetch cw fetch r.link).1 = none := by
          simp [imgPrefetch, hlink]
        rw [hl4, hpil]
        simp [imgStage, hlink]
      rw [hie]
      simp only [ite_self]
      linarith [hy2, hy3, hy5, hy6, hy4]
    · cases hf : fetch (convert_google_drive_link r.link) with
      | none =>
          have hpil : (imgPrefetch cw fetch r.link).1 = none := by
            simp [imgPrefetch, hlink, hf]
          have hie : (imgPrefetch cw fetch r.link).2
              = ((wrapped_lines cw [] failMsg usable_width).length : ℚ) * line_h := by
            simp [imgPrefetch, hlink, hf]
          have hlen : 1 ≤ (wrapped_lines cw [] failMsg usable_width).length :=
            wrap_text_length_pos cw usable_width ([] ++ failMsg)
          have hpos : (0 : ℚ)
              < ((wrapped_lines cw [] failMsg usable_width).length : ℚ) * line_h := by
            have h1 : (1 : ℚ) ≤ ((wrapped_lines cw [] failMsg usable_width).length : ℚ) := by
              exact_mod_cast hlen
            rw [line_h]
            nlinarith
          have hy4 : l4.y
              = l3.y - line_h * ((wrapped_lines cw [] failMsg usable_width).length : ℚ) := by
            rw [hl4, hpil]
            simp only [imgStage, if_neg hlink]
            exact draw_wrapped_lines_y _ _
          rw [hie, if_neg (ne_of_gt hpos)]
          linarith [hy2, hy3, hy5, hy6, hy4]
      | some d =>
          obtain ⟨iw, ih⟩ := d
          have hpil : (imgPrefetch cw fetch r.link).1 = some (iw, ih) := by
            simp [imgPrefetch, hlink, hf]
          have hie : (imgPrefetch cw fetch r.link).2
              = (ih : ℚ) * scaleFor iw ih + 20 := by
            simp [imgPrefetch, hlink, hf]
          by_cases hfit : l3.y - (ih : ℚ) * scaleFor iw ih < bottom_margin
          · exfalso
            have h4p : l4.pages = l3.pages + 1 := by
              rw [hl4, hpil]
              simp only [imgStage]
              exact drawImage_section_pages_of_break cw none hfit
            have h7ge : l6.pages ≤ (trailingStage l6).pages :=
              trailingStage_pages_ge l6
            omega
          · have hy4 : l4.y = l3.y - ((ih : ℚ) * scaleFor iw ih + 20) := by
              rw [hl4, hpil]
              simp only [imgStage]
              rw [drawImage_section_of_fit cw hfit]
            have hie_pos : (0 : ℚ) < (ih : ℚ) * scaleFor iw ih + 20 := by
              have h1 : 0 ≤ (ih : ℚ) * scaleFor iw ih :=
                mul_nonneg (Nat.cast_nonneg ih) (scaleFor_nonneg iw ih)
              linarith
            rw [hie, if_neg (ne_of_gt hie_pos)]
            linarith [hy2, hy3, hy5, hy6, hy4]

/-- C2.  For a record drawn with no page break between the start of its
question block and its trailing padding, and no draw-time image
exception, the cursor's total descent equals the estimated height. -/
theorem est_draw_agreement (cw : Char → ℚ)
    (fetch : List Char → Option (ℕ × ℕ))
    (dE : List Char → Option (List Char)) (st : St) (r : Record)
    (hdE : dE (convert_google_drive_link r.link) = none)
    (hmid : (processRecord cw fetch dE st r).2.midBreaks = 0) :
    (processRecord cw fetch dE st r).2.yStart
      - (processRecord cw fetch dE st r).2.yEnd
      = (processRecord cw fetch dE st r).2.estH := by
  have hmid' :
      (trailingStage (draw_wrapped_lines (catLines cw r)
        (draw_wrapped_lines (ansLines cw r)
          (imgStage cw (imgPrefetch cw fetch r.link).1
            (dE (convert_google_drive_link r.link)) r.link
            (foldDraw (choiceLinesList cw r)
              (draw_wrapped_lines (qLines cw r)
                (preStage (est_h cw fetch r) ⟨st.y, st.pages, []⟩))))))).pages
        - (preStage (est_h cw fetch r) ⟨st.y, st.pages, []⟩).pages = 0 := hmid
  exact record_body_descent cw fetch r _ hdE
    (preStage (est_h cw fetch r) ⟨st.y, st.pages, []⟩) hmid'

/-- The empty sample record breaks no page mid-record. -/
theorem processRecord_emptyRec_midBreaks :
    (processRecord cwTen fetchNone dENone ⟨topY, 0⟩ emptyRec).2.midBreaks
      = 0 := by
  have hpre : preStage (est_h cwTen fetchNone emptyRec) ⟨topY, 0, []⟩
      = ⟨topY, 0, []⟩ := by
    apply preStage_of_fit
    show ¬ (topY - est_h cwTen fetchNone emptyRec < bottom_margin)
    rw [est_h_emptyRec, topY_val]
    norm_num [bottom_margin]
  show (trailingStage (draw_wrapped_lines (catLines cwTen emptyRec)
      (draw_wrapped_lines (ansLines cwTen emptyRec)
        (imgStage cwTen (imgPrefetch cwTen fetchNone emptyRec.link).1
          (dENone (convert_google_drive_link emptyRec.link)) emptyRec.link
          (foldDraw (choiceLinesList cwTen emptyRec)
            (draw_wrapped_lines (qLines cwTen emptyRec)
              (preStage (est_h cwTen fetchNone emptyRec) ⟨topY, 0, []⟩))))))).pages
    - (preStage (est_h cwTen fetchNone emptyRec) ⟨topY, 0, []⟩).pages = 0
  rw [hpre, qLines_emptyRec, ansLines_emptyRec, catLines_emptyRec,
    choiceLinesList_emptyRec, foldDraw_nil]
  have hpil : (imgPrefetch cwTen fetchNone emptyRec.link).1 = none := rfl
  rw [hpil]
  have himg : imgStage cwTen none
      (dENone (convert_google_drive_link emptyRec.link)) emptyRec.link
      (draw_wrapped_lines [qPre] ⟨topY, 0, []⟩)
      = draw_wrapped_lines [qPre] ⟨topY, 0, []⟩ := by
    simp [imgStage, emptyRec]
  rw [himg]
  have htr : ¬ ((draw_wrapped_lines [catPre]
      (draw_wrapped_lines [ansPre]
        (draw_wrapped_lines [qPre] (⟨topY, 0, []⟩ : LSt)))).y - 20
      < bottom_margin) := by
    rw [draw_wrapped_lines_y, draw_wrapped_lines_y, draw_wrapped_lines_y]
    show ¬ (topY - line_h * ([qPre].length : ℚ) - line_h * ([ansPre].length : ℚ)
      - line_h * ([catPre].length : ℚ) - 20 < bottom_margin)
    rw [topY_val]
    norm_num [line_h, bottom_margin]
  rw [trailingStage_of_fit htr]
  simp [draw_wrapped_lines_pages]

/-- Witness for C2 at the empty sample record. -/
theorem est_draw_agreement_witness :
    dENone (convert_google_drive_link emptyRec.link) = none ∧
    (processRecord cwTen fetchNone dENone ⟨topY, 0⟩ emptyRec).2.midBreaks = 0 ∧
    (processRecord cwTen fetchNone dENone ⟨topY, 0⟩ emptyRec).2.yStart
      - (processRecord cwTen fetchNone dENone ⟨topY, 0⟩ emptyRec).2.yEnd
      = (processRecord cwTen fetchNone dENone ⟨topY, 0⟩ emptyRec).2.estH :=
  ⟨rfl, processRecord_emptyRec_midBreaks,
    est_draw_agreement cwTen fetchNone dENone ⟨topY, 0⟩ emptyRec rfl
      processRecord_emptyRec_midBreaks⟩

/-! ## C3: per-record image-error isolation -/

theorem headD_mem {l : List α} (h : l ≠ []) (d : α) : l.headD d ∈ l := by
  cases l with
  | nil => exact absurd rfl h
  | cons x xs => simp

theorem draw_ops_grow (L : List (List Char)) (st : LSt) :
    st.ops <+: (draw_wrapped_lines L st).ops :=
  ⟨L.map Op.text, rfl⟩

theorem new_page_ops_grow (st : LSt) : st.ops <+: (new_page st).ops :=
  ⟨[Op.newPage], rfl⟩

theorem preStage_ops_grow (est : ℚ) (st : LSt) :
    st.ops <+: (preStage est st).ops := by
  by_cases h : st.y - est < bottom_margin
  · rw [preStage_of_break h]
    exact new_page_ops_grow st
  · rw [preStage_of_fit h]

theorem foldDraw_ops_grow : ∀ (lss : List (List (List Char))) (st : LSt),
    st.ops <+: (foldDraw lss st).ops := by
  intro lss
  induction lss with
  | nil =>
      intro st
      exact List.prefix_rfl
  | cons ls rest ih =>
      intro st
      show st.ops <+: (foldDraw rest (draw_wrapped_lines ls st)).ops
      exact (draw_ops_grow ls st).trans (ih _)

theorem drawImage_ops_grow (cw : Char → ℚ) (dE2 : Option (List Char))
    (iw ih : ℕ) (st : LSt) :
    st.ops <+: (drawImage_section cw dE2 iw ih st).ops := by
  have hst1 : st.ops
      <+: (if st.y - (ih : ℚ) * scaleFor iw ih < bottom_margin
            then new_page st else st).ops := by
    by_cases h : st.y - (ih : ℚ) * scaleFor iw ih < bottom_margin
    · rw [if_pos h]
      exact new_page_ops_grow st
    · rw [if_neg h]
  cases dE2 with
  | some e =>
      simp only [drawImage_section]
      exact hst1.trans (draw_ops_grow _ _)
  | none =>
      simp only [drawImage_section]
      exact hst1.trans ⟨[Op.image _ _ _ _], rfl⟩

theorem imgStage_ops_grow (cw : Char → ℚ) (pil : Option (ℕ × ℕ))
    (dE2 : Option (List Char)) (link : List Char) (st : LSt) :
    st.ops <+: (imgStage cw pil dE2 link st).ops := by
  cases pil with
  | some d =>
      obtain ⟨iw, ih⟩ := d
      simp only [imgStage]
      exact drawImage_ops_grow cw dE2 iw ih st
  | none =>
      by_cases hl : link = []
      · simp only [imgStage, if_pos hl]
        exact List.prefix_rfl
      · simp only [imgStage, if_neg hl]
        exact draw_ops_grow _ _

theorem trailingStage_ops_grow (st : LSt) :
    st.ops <+: (trailingStage st).ops := by
  by_cases h : st.y - 20 < bottom_margin
  · rw [trailingStage_of_break h]
    exact new_page_ops_grow st
  · rw [trailingStage_of_fit h]

/-- A failed fetch on a linked record draws the fallback line. -/
theorem processRecord_fetchFail_fallback (cw : Char → ℚ)
    (fetch : List Char → Option (ℕ × ℕ))
    (dE : List Char → Option (List Char)) (st : St) (r : Record)
    (hlink : r.link ≠ [])
    (hf : fetch (convert_google_drive_link r.link) = none) :
    Op.text ((wrapped_lines cw [] failMsg usable_width).headD [])
      ∈ (processRecord cw fetch dE st r).2.ops := by
  have hpil : (imgPrefetch cw fetch r.link).1 = none := by
    simp [imgPrefetch, hlink, hf]
  show Op.text _ ∈ (trailingStage (draw_wrapped_lines (catLines cw r)
      (draw_wrapped_lines (ansLines cw r)
        (imgStage cw (imgPrefetch cw fetch r.link).1
          (dE (convert_google_drive_link r.link)) r.link
          (foldDraw (choiceLinesList cw r)
            (draw_wrapped_lines (qLines cw r)
              (preStage (est_h cw fetch r) ⟨st.y, st.pages, []⟩))))))).ops
  set l3 := foldDraw (choiceLinesList cw r)
    (draw_wrapped_lines (qLines cw r)
      (preStage (est_h cw fetch r) ⟨st.y, st.pages, []⟩)) with hl3
  rw [hpil]
  have himg : imgStage cw none (dE (convert_google_drive_link r.link)) r.link l3
      = draw_wrapped_lines (wrapped_lines cw [] failMsg usable_width) l3 := by
    simp only [imgStage, if_neg hlink]
  rw [himg]
  have hne : wrapped_lines cw [] failMsg usable_width ≠ [] := by
    have h1 : 1 ≤ (wrapped_lines cw [] failMsg usable_width).length :=
      wrap_text_length_pos cw usable_width ([] ++ failMsg)
    exact List.length_pos.mp (by omega)
  have hmem4 : Op.text ((wrapped_lines cw [] failMsg usable_width).headD [])
      ∈ (draw_wrapped_lines (wrapped_lines cw [] failMsg usable_width) l3).ops := by
    rw [draw_wrapped_lines_ops]
    exact List.mem_append_right _ (List.mem_map_of_mem _ (headD_mem hne []))
  exact ((draw_ops_grow _ _).trans
    ((draw_ops_grow _ _).trans (trailingStage_ops_grow _))).subset hmem4

/-- A draw-time image exception on a fetched record draws the error
fallback line naming the failure. -/
theorem processRecord_drawErr_fallback (cw : Char → ℚ)
    (fetch : List Char → Option (ℕ × ℕ))
    (dE : List Char → Option (List Char)) (st : St) (r : Record)
    (iw ih : ℕ) (e : List Char) (hlink : r.link ≠ [])
    (hf : fetch (convert_google_drive_link r.link) = some (iw, ih))
    (he : dE (convert_google_drive_link r.link) = some e) :
    Op.text ((wrapped_lines cw [] (errOpen ++ e ++ [']']) usable_width).headD [])
      ∈ (processRecord cw fetch dE st r).2.ops := by
  have hpil : (imgPrefetch cw fetch r.link).1 = some (iw, ih) := by
    simp [imgPrefetch, hlink, hf]
  show Op.text _ ∈ (trailingStage (draw_wrapped_lines (catLines cw r)
      (draw_wrapped_lines (ansLines cw r)
        (imgStage cw (imgPrefetch cw fetch r.link).1
          (dE (convert_google_drive_link r.link)) r.link
          (foldDraw (choiceLinesList cw r)
            (draw_wrapped_lines (qLines cw r)
              (preStage (est_h cw fetch r) ⟨st.y, st.pages, []⟩))))))).ops
  set l3 := foldDraw (choiceLinesList cw r)
    (draw_wrapped_lines (qLines cw r)
      (preStage (est_h cw fetch r) ⟨st.y, st.pages, []⟩)) with hl3
  rw [hpil, he]
  have himg : imgStage cw (some (iw, ih)) (some e) r.link l3
      = draw_wrapped_lines
          (wrapped_lines cw [] (errOpen ++ e ++ [']']) usable_width)
          (if l3.y - (ih : ℚ) * scaleFor iw ih < bottom_margin
            then new_page l3 else l3) := by
    simp only [imgStage, drawImage_section]
  rw [himg]
  have hne : wrapped_lines cw [] (errOpen ++ e ++ [']']) usable_width ≠ [] := by
    have h1 : 1 ≤ (wrapped_lines cw [] (errOpen ++ e ++ [']']) usable_width).length :=
      wrap_text_length_pos cw usable_width ([] ++ (errOpen ++ e ++ [']']))
    exact List.length_pos.mp (by omega)
  have hmem4 : Op.text
      ((wrapped_lines cw [] (errOpen ++ e ++ [']']) usable_width).headD [])
      ∈ (draw_wrapped_lines
          (wrapped_lines cw [] (errOpen ++ e ++ [']']) usable_width)
          (if l3.y - (ih : ℚ) * scaleFor iw ih < bottom_margin
            then new_page l3 else l3)).ops := by
    rw [draw_wrapped_lines_ops]
    exact List.mem_append_right _ (List.mem_map_of_mem _ (headD_mem hne []))
  exact ((draw_ops_grow _ _).trans
    ((draw_ops_grow _ _).trans (trailingStage_ops_grow _))).subset hmem4

theorem runRecords_length (cw : Char → ℚ) (fetch : List Char → Option (ℕ × ℕ))
    (dE : List Char → Option (List Char)) :
    ∀ (recs : List Record) (st : St),
      (runRecords cw fetch dE st recs).2.length = recs.length := by
  intro recs
  induction recs with
  | nil => intro st; rfl
  | cons r rs ih =>
      intro st
      simp only [runRecords, List.length_cons]
      rw [ih]

theorem runRecords_isolation (cw : Char → ℚ)
    (fetch : List Char → Option (ℕ × ℕ))
    (dE : List Char → Option (List Char)) :
    ∀ (recs : List Record) (st : St) (i : ℕ) (hi : i < recs.length),
      ((recs.get ⟨i, hi⟩).link ≠ [] →
        fetch (convert_google_drive_link (recs.get ⟨i, hi⟩).link) = none →
        Op.text ((wrapped_lines cw [] failMsg usable_width).headD [])
          ∈ ((runRecords cw fetch dE st recs).2.getD i noRec).ops) ∧
      (∀ (iw ih : ℕ) (e : List Char), (recs.get ⟨i, hi⟩).link ≠ [] →
        fetch (convert_google_drive_link (recs.get ⟨i, hi⟩).link)
          = some (iw, ih) →
        dE (convert_google_drive_link (recs.get ⟨i, hi⟩).link) = some e →
        Op.text ((wrapped_lines cw [] (errOpen ++ e ++ [']']) usable_width).headD [])
          ∈ ((runRecords cw fetch dE st recs).2.getD i noRec).ops) := by
  intro recs
  induction recs with
  | nil =>
      intro st i hi
      exact absurd hi (by simp)
  | cons r rs ih =>
      intro st i hi
      cases i with
      | zero =>
          constructor
          · intro hlink hf
            have h := processRecord_fetchFail_fallback cw fetch dE st r hlink hf
            simpa [runRecords] using h
          · intro iw ihh e hlink hf he
            have h := processRecord_drawErr_fallback cw fetch dE st r
              iw ihh e hlink hf he
            simpa [runRecords] using h
      | succ j =>
          have hj : j < rs.length := by simpa using hi
          have h := ih (processRecord cw fetch dE st r).1 j hj
          constructor
          · intro hlink hf
            have h1 := h.1 (by simpa using hlink) (by simpa using hf)
            simpa [runRecords] using h1
          · intro iw ihh e hlink hf he
            have h2 := h.2 iw ihh e (by simpa using hlink) (by simpa using hf)
              (by simpa using he)
            simpa [runRecords] using h2

/-- C3.  Image fetch/decode/draw errors are confined to their record: the
run still lays out every record (`results.length = records.length`), and
the failing record gets a visible fallback line in place of the image. -/
theorem image_error_isolation (cw : Char → ℚ)
    (fetch : List Char → Option (ℕ × ℕ))
    (dE : List Char → Option (List Char)) (recs : List Record) (b : Bool) :
    (create_pdf cw fetch dE recs b).results.length = recs.length ∧
    ∀ (i : ℕ) (hi : i < recs.length),
      ((recs.get ⟨i, hi⟩).link ≠ [] →
        fetch (convert_google_drive_link (recs.get ⟨i, hi⟩).link) = none →
        Op.text ((wrapped_lines cw [] failMsg usable_width).headD [])
          ∈ ((create_pdf cw fetch dE recs b).results.getD i noRec).ops) ∧
      (∀ (iw ih : ℕ) (e : List Char), (recs.get ⟨i, hi⟩).link ≠ [] →
        fetch (convert_google_drive_link (recs.get ⟨i, hi⟩).link)
          = some (iw, ih) →
        dE (convert_google_drive_link (recs.get ⟨i, hi⟩).link) = some e →
        Op.text ((wrapped_lines cw []
            (errOpen ++ e ++ [']']) usable_width).headD [])
          ∈ ((create_pdf cw fetch dE recs b).results.getD i noRec).ops) := by
  constructor
  · exact runRecords_length cw fetch dE recs ⟨topY, 0⟩
  · intro i hi
    exact runRecords_isolation cw fetch dE recs ⟨topY, 0⟩ i hi

/-- Witness for C3: a broken-link record followed by a plain record; the
build lays out both and record 0 carries the fallback line. -/
theorem image_error_isolation_witness :
    (create_pdf cwTen fetchNone dENone [badLinkRec, emptyRec] false).results.length
        = 2 ∧
      badLinkRec.link ≠ [] ∧
      Op.text ((wrapped_lines cwTen [] failMsg usable_width).headD [])
        ∈ ((create_pdf cwTen fetchNone dENone
            [badLinkRec, emptyRec] false).results.getD 0 noRec).ops :=
  ⟨(image_error_isolation cwTen fetchNone dENone [badLinkRec, emptyRec] false).1,
    by decide,
    ((image_error_isolation cwTen fetchNone dENone [badLinkRec, emptyRec]
        false).2 0 (by norm_num)).1 (by decide) rfl⟩

/-! ## C6: no upscale -/

theorem new_page_ops (st : LSt) :
    (new_page st).ops = st.ops ++ [Op.newPage] := rfl

theorem imgOpLe_text (l : List Char) : imgOpLe (Op.text l) :=
  fun _ _ _ _ h => Op.noConfusion h

theorem imgOpLe_newPage : imgOpLe Op.newPage :=
  fun _ _ _ _ h => Op.noConfusion h

theorem adj_le (a rem nh : ℚ) (ha : 0 ≤ a) (hrem : 0 < rem) (hgt : nh > rem) :
    a * (rem / nh) ≤ a := by
  have hnh : 0 < nh := lt_trans hrem hgt
  apply mul_le_of_le_one_right ha
  rw [div_le_one hnh]
  exact le_of_lt hgt

theorem new_page_imgOpLe (st : LSt) (hst : ∀ op ∈ st.ops, imgOpLe op) :
    ∀ op ∈ (new_page st).ops, imgOpLe op := by
  intro o ho
  rw [new_page_ops] at ho
  rcases List.mem_append.mp ho with h1 | h2
  · exact hst o h1
  · rw [List.mem_singleton] at h2
    subst h2
    exact imgOpLe_newPage

theorem draw_imgOpLe (L : List (List Char)) (st : LSt)
    (hst : ∀ op ∈ st.ops, imgOpLe op) :
    ∀ op ∈ (draw_wrapped_lines L st).ops, imgOpLe op := by
  intro o ho
  rw [draw_wrapped_lines_ops] at ho
  rcases List.mem_append.mp ho with h1 | h2
  · exact hst o h1
  · obtain ⟨l, _, h3⟩ := List.mem_map.mp h2
    subst h3
    exact imgOpLe_text l

theorem foldDraw_imgOpLe : ∀ (lss : List (List (List Char))) (st : LSt),
    (∀ op ∈ st.ops, imgOpLe op) →
      ∀ op ∈ (foldDraw lss st).ops, imgOpLe op := by
  intro lss
  induction lss with
  | nil => intro st hst; exact hst
  | cons ls rest ih =>
      intro st hst
      exact ih (draw_wrapped_lines ls st) (draw_imgOpLe ls st hst)

theorem preStage_imgOpLe (est : ℚ) (st : LSt)
    (hst : ∀ op ∈ st.ops, imgOpLe op) :
    ∀ op ∈ (preStage est st).ops, imgOpLe op := by
  by_cases h : st.y - est < bottom_margin
  · rw [preStage_of_break h]
    exact new_page_imgOpLe st hst
  · rw [preStage_of_fit h]
    exact hst

theorem trailingStage_imgOpLe (st : LSt)
    (hst : ∀ op ∈ st.ops, imgOpLe op) :
    ∀ op ∈ (trailingStage st).ops, imgOpLe op := by
  by_cases h : st.y - 20 < bottom_margin
  · rw [trailingStage_of_break h]
    exact new_page_imgOpLe st hst
  · rw [trailingStage_of_fit h]
    exact hst

/-- The image block only ever emits image actions whose drawn size is
bounded by the original size: the prefetch scale is `≤ 1`, and the
draw-time shrink factor, when applied, is `remaining / nh < 1` with
`remaining > 0`. -/
theorem drawImage_imgOpLe (cw : Char → ℚ) (dE2 : Option (List Char))
    (iw ih : ℕ) (st : LSt) (hst : ∀ op ∈ st.ops, imgOpLe op) :
    ∀ op ∈ (drawImage_section cw dE2 iw ih st).ops, imgOpLe op := by
  intro op hop
  have hst1 : ∀ o ∈ (if st.y - (ih : ℚ) * scaleFor iw ih < bottom_margin
      then new_page st else st).ops, imgOpLe o := by
    by_cases h : st.y - (ih : ℚ) * scaleFor iw ih < bottom_margin
    · rw [if_pos h]
      exact new_page_imgOpLe st hst
    · rw [if_neg h]
      exact hst
  have hbase_w : (iw : ℚ) * scaleFor iw ih ≤ (iw : ℚ) :=
    mul_le_of_le_one_right (Nat.cast_nonneg iw) (scaleFor_le_one _ _)
  have hbase_h : (ih : ℚ) * scaleFor iw ih ≤ (ih : ℚ) :=
    mul_le_of_le_one_right (Nat.cast_nonneg ih) (scaleFor_le_one _ _)
  cases dE2 with
  | some e =>
      simp only [drawImage_section] at hop
      rw [draw_wrapped_lines_ops] at hop
      rcases List.mem_append.mp hop with h1 | h2
      · exact hst1 op h1
      · obtain ⟨l, _, h3⟩ := List.mem_map.mp h2
        subst h3
        exact imgOpLe_text l
  | none =>
      simp only [drawImage_section] at hop
      rcases List.mem_append.mp hop with h1 | h2
      · exact hst1 op h1
      · rw [List.mem_singleton] at h2
        subst h2
        intro iw' ih' nw' nh' heq
        injection heq with e1 e2 e3 e4
        subst e1
        subst e2
        rw [← e3, ← e4]
        by_cases hfit : st.y - (ih : ℚ) * scaleFor iw ih < bottom_margin
        · simp only [if_pos hfit, new_page_y]
          have hrem : 0 < topY - bottom_margin := by
            rw [topY_val]
            norm_num [bottom_margin]
          by_cases hadj : (ih : ℚ) * scaleFor iw ih > topY - bottom_margin
          · simp only [if_pos hadj]
            constructor
            · exact le_trans (adj_le _ _ _
                (mul_nonneg (Nat.cast_nonneg iw) (scaleFor_nonneg iw ih))
                hrem hadj) hbase_w
            · exact le_trans (adj_le _ _ _
                (mul_nonneg (Nat.cast_nonneg ih) (scaleFor_nonneg iw ih))
                hrem hadj) hbase_h
          · simp only [if_neg hadj]
            exact ⟨hbase_w, hbase_h⟩
        · simp only [if_neg hfit]
          have hadj : ¬ ((ih : ℚ) * scaleFor iw ih > st.y - bottom_margin) := by
            push_neg at hfit ⊢
            linarith
          simp only [if_neg hadj]
          exact ⟨hbase_w, hbase_h⟩

theorem imgStage_imgOpLe (cw : Char → ℚ) (pil : Option (ℕ × ℕ))
    (dE2 : Option (List Char)) (link : List Char) (st : LSt)
    (hst : ∀ op ∈ st.ops, imgOpLe op) :
    ∀ op ∈ (imgStage cw pil dE2 link st).ops, imgOpLe op := by
  cases pil with
  | some d =>
      obtain ⟨iw, ih⟩ := d
      simp only [imgStage]
      exact drawImage_imgOpLe cw dE2 iw ih st hst
  | none =>
      by_cases hl : link = []
      · simp only [imgStage, if_pos hl]
        exact hst
      · simp only [imgStage, if_neg hl]
        exact draw_imgOpLe _ st hst

theorem processRecord_imgOpLe (cw : Char → ℚ)
    (fetch : List Char → Option (ℕ × ℕ))
    (dE : List Char → Option (List Char)) (st : St) (r : Record) :
    ∀ op ∈ (processRecord cw fetch dE st r).2.ops, imgOpLe op := by
  show ∀ op ∈ (trailingStage (draw_wrapped_lines (catLines cw r)
      (draw_wrapped_lines (ansLines cw r)
        (imgStage cw (imgPrefetch cw fetch r.link).1
          (dE (convert_google_drive_link r.link)) r.link
          (foldDraw (choiceLinesList cw r)
            (draw_wrapped_lines (qLines cw r)
              (preStage (est_h cw fetch r) ⟨st.y, st.pages, []⟩))))))).ops,
    imgOpLe op
  have h0 : ∀ op ∈ (⟨st.y, st.pages, []⟩ : LSt).ops, imgOpLe op := by
    intro o ho
    exact absurd ho (List.not_mem_nil o)
  exact trailingStage_imgOpLe _ (draw_imgOpLe _ _ (draw_imgOpLe _ _
    (imgStage_imgOpLe _ _ _ _ _ (foldDraw_imgOpLe _ _
      (draw_imgOpLe _ _ (preStage_imgOpLe _ _ h0))))))

theorem runRecords_imgOpLe (cw : Char → ℚ)
    (fetch : List Char → Option (ℕ × ℕ))
    (dE : List Char → Option (List Char)) :
    ∀ (recs : List Record) (st : St),
      ∀ res ∈ (runRecords cw fetch dE st recs).2, ∀ op ∈ res.ops, imgOpLe op := by
  intro recs
  induction recs with
  | nil =>
      intro st res hres
      simp [runRecords] at hres
  | cons r rs ih =>
      intro st res hres
      simp only [runRecords] at hres
      rcases List.mem_cons.mp hres with h1 | h2
      · subst h1
        exact processRecord_imgOpLe cw fetch dE st r
      · exact ih (processRecord cw fetch dE st r).1 res h2

/-- C6.  The estimation-time scale factor is at most one, and every image
actually drawn by `create_pdf` has drawn dimensions bounded by its
original pixel dimensions. -/
theorem no_upscale (cw : Char → ℚ) (fetch : List Char → Option (ℕ × ℕ))
    (dE : List Char → Option (List Char)) (recs : List Record) (b : Bool) :
    (∀ iw ih : ℚ, scaleFor iw ih ≤ 1) ∧
    ∀ res ∈ (create_pdf cw fetch dE recs b).results,
      ∀ op ∈ res.ops, imgOpLe op :=
  ⟨fun iw ih => scaleFor_le_one iw ih,
    fun res hres op hop =>
      runRecords_imgOpLe cw fetch dE recs ⟨topY, 0⟩ res hres op hop⟩

/-- A concrete drawn action of the empty-record run, used by the C6
witness. -/
theorem emptyRec_op_mem :
    Op.text qPre ∈ ((create_pdf cwTen fetchNone dENone [emptyRec]
      false).results.headD noRec).ops := by
  have hpre : preStage (est_h cwTen fetchNone emptyRec) ⟨topY, 0, []⟩
      = ⟨topY, 0, []⟩ := by
    apply preStage_of_fit
    show ¬ (topY - est_h cwTen fetchNone emptyRec < bottom_margin)
    rw [est_h_emptyRec, topY_val]
    norm_num [bottom_margin]
  show Op.text qPre ∈ (trailingStage (draw_wrapped_lines (catLines cwTen emptyRec)
      (draw_wrapped_lines (ansLines cwTen emptyRec)
        (imgStage cwTen (imgPrefetch cwTen fetchNone emptyRec.link).1
          (dENone (convert_google_drive_link emptyRec.link)) emptyRec.link
          (foldDraw (choiceLinesList cwTen emptyRec)
            (draw_wrapped_lines (qLines cwTen emptyRec)
              (preStage (est_h cwTen fetchNone emptyRec) ⟨topY, 0, []⟩))))))).ops
  rw [hpre, qLines_emptyRec, choiceLinesList_emptyRec, foldDraw_nil]
  have hpil : (imgPrefetch cwTen fetchNone emptyRec.link).1 = none := rfl
  rw [hpil]
  have himg : imgStage cwTen none
      (dENone (convert_google_drive_link emptyRec.link)) emptyRec.link
      (draw_wrapped_lines [qPre] ⟨topY, 0, []⟩)
      = draw_wrapped_lines [qPre] ⟨topY, 0, []⟩ := by
    simp [imgStage, emptyRec]
  rw [himg]
  have hm : Op.text qPre ∈ (draw_wrapped_lines [qPre] (⟨topY, 0, []⟩ : LSt)).ops := by
    rw [draw_wrapped_lines_ops]
    simp
  exact ((draw_ops_grow _ _).trans
    ((draw_ops_grow _ _).trans (trailingStage_ops_grow _))).subset hm

/-- Witness for C6. -/
theorem no_upscale_witness :
    scaleFor 2 3 ≤ 1 ∧ imgOpLe (Op.text qPre) :=
  ⟨(no_upscale cwTen fetchNone dENone [] false).1 2 3,
    (no_upscale cwTen fetchNone dENone [emptyRec] false).2
      ((create_pdf cwTen fetchNone dENone [emptyRec] false).results.headD noRec)
      (List.mem_cons_self _ _) (Op.text qPre) emptyRec_op_mem⟩

/-! ## C8: progress monotonicity -/

theorem create_pdf_progress (cw : Char → ℚ)
    (fetch : List Char → Option (ℕ × ℕ))
    (dE : List Char → Option (List Char)) (recs : List Record) :
    (create_pdf cw fetch dE recs true).progress
      = progressReports recs.length := by
  simp [create_pdf]

theorem progressReports_denom_pos (n : ℕ) :
    (0 : ℚ) < ((max n 1 : ℕ) : ℚ) := by
  have h : 1 ≤ max n 1 := Nat.le_max_right n 1
  exact_mod_cast Nat.lt_of_lt_of_le Nat.zero_lt_one h

theorem progressReports_chain (n : ℕ) :
    List.Chain' (· ≤ ·) (progressReports n) := by
  rw [progressReports, List.chain'_map]
  cases n with
  | zero => simp
  | succ m =>
      rw [List.chain'_range_succ]
      intro k _
      have hM := progressReports_denom_pos (m + 1)
      apply min_le_min _ le_rfl
      apply div_le_div_of_nonneg_right ?_ (le_of_lt hM)
      push_cast
      linarith

theorem progressReports_bounds (n : ℕ) :
    ∀ v ∈ progressReports n, 0 ≤ v ∧ v ≤ 1 := by
  intro v hv
  rw [progressReports, List.mem_map] at hv
  obtain ⟨k, _, rfl⟩ := hv
  constructor
  · apply le_min _ (by norm_num)
    apply div_nonneg _ (le_of_lt (progressReports_denom_pos n))
    positivity
  · exact min_le_right _ _

theorem progressReports_last (n : ℕ) (h : 1 ≤ n) :
    (progressReports n).getLast? = some 1 := by
  obtain ⟨m, rfl⟩ : ∃ m, n = m + 1 := ⟨n - 1, by omega⟩
  rw [progressReports, List.range_succ, List.map_append, List.map_singleton,
    List.getLast?_concat]
  have hmax : max (m + 1) 1 = m + 1 := Nat.max_eq_left (by omega)
  rw [hmax]
  have hpos : (0 : ℚ) < (m : ℚ) + 1 := by positivity
  push_cast
  rw [div_self (ne_of_gt hpos)]
  norm_num

/-- C8.  For a non-empty record list, the progress values reported by
`create_pdf` are non-decreasing, all lie in `[0, 1]`, and the final one
is `1`. -/
theorem progress_monotone (cw : Char → ℚ)
    (fetch : List Char → Option (ℕ × ℕ))
    (dE : List Char → Option (List Char)) (recs : List Record)
    (h : recs ≠ []) :
    List.Chain' (· ≤ ·) (create_pdf cw fetch dE recs true).progress ∧
    (∀ v ∈ (create_pdf cw fetch dE recs true).progress, 0 ≤ v ∧ v ≤ 1) ∧
    (create_pdf cw fetch dE recs true).progress.getLast? = some 1 := by
  rw [create_pdf_progress]
  refine ⟨progressReports_chain recs.length,
    progressReports_bounds recs.length, ?_⟩
  exact progressReports_last recs.length
    (List.length_pos.mpr h)

/-- Witness for C8 at a one-record run. -/
theorem progress_monotone_witness :
    ([emptyRec] : List Record) ≠ [] ∧
    (List.Chain' (· ≤ ·)
        (create_pdf cwTen fetchNone dENone [emptyRec] true).progress ∧
      (∀ v ∈ (create_pdf cwTen fetchNone dENone [emptyRec] true).progress,
        0 ≤ v ∧ v ≤ 1) ∧
      (create_pdf cwTen fetchNone dENone [emptyRec] true).progress.getLast?
        = some 1) :=
  ⟨by simp, progress_monotone cwTen fetchNone dENone [emptyRec] (by simp)⟩

end QuoVadis
